import Mathlib

/-!
Shallow embedding of the reconciliation core of route53-transfer-ng
(`src/route53_transfer/app.py`): the diff engine (`compute_changes`),
the priority assigner (`assign_change_priority`) and the batch planner
(`changes_to_r53_updates`), together with theorems settling the spec
claims about them.

The record model (`models.py`) and `ChangeBatch` (`change_batch.py`) are
not part of the sources; they are modelled from the spec (section 3) as
noted on each definition.
-/

set_option linter.unusedVariables false

/-- Modelled from the spec: `models.py` is missing from the sources. The
`AliasTarget` sub-object of a record: `DNSName`, `HostedZoneId`,
`EvaluateTargetHealth` (spec section 3). -/
structure AliasTargetModel where
  DNSName : String
  HostedZoneId : String
  EvaluateTargetHealth : Bool
deriving DecidableEq

/-- Modelled from the spec: `models.py` is missing from the sources. The
`GeoLocation` sub-object of a record (spec section 3). -/
structure GeoLocationModel where
  ContinentCode : Option String := none
  CountryCode : Option String := none
  SubdivisionCode : Option String := none
deriving DecidableEq

/-- Modelled from the spec: `models.py` is missing from the sources. One
resource record value (`{Value}` entries of `ResourceRecords`). -/
structure ResourceRecord where
  Value : String
deriving DecidableEq

/-- Modelled from the spec: `models.py` is missing from the sources. The
`R53Record` model: one DNS resource record set, an immutable value whose
equality is full structural equality over all populated fields
(spec section 3). -/
structure R53Record where
  Name : String
  «Type» : String
  TTL : Option Nat := none
  ResourceRecords : List ResourceRecord := []
  AliasTarget : Option AliasTargetModel := none
  GeoLocation : Option GeoLocationModel := none
  SetIdentifier : Option String := none
  Weight : Option Nat := none
  Failover : Option String := none
  Region : Option String := none
  MultiValueAnswer : Option Bool := none
  HealthCheckId : Option String := none
deriving DecidableEq

/-- Modelled from the spec: `R53Record.is_alias` of the missing
`models.py`. Spec section 3 invariant: a record is an alias iff
`AliasTarget` is present. -/
def R53Record.is_alias (r : R53Record) : Bool :=
  r.AliasTarget.isSome

/-- Reading `record.AliasTarget.DNSName`; the call sites in `app.py` only
evaluate it behind an `is_alias` guard, so the `none` branch is
unreachable there. -/
def R53Record.aliasDNSName (r : R53Record) : String :=
  (r.AliasTarget.map fun t => t.DNSName).getD ""

/-- Route53 zone object as used by `app.py`: a dict with `id` and
`name`. -/
structure Zone where
  id : String
  name : String
deriving DecidableEq

/-- One change operation as built by `compute_changes`: the Python dict
`{"zone": ..., "operation": ..., "record": ...}` plus the `"prio"` key
written later by `assign_change_priority` (0 before assignment). -/
structure Change where
  zone : Zone
  operation : String
  record : R53Record
  prio : Nat
deriving DecidableEq

/-- Modelled from the spec: `change_batch.py` is missing from the
sources. A `ChangeBatch` carries the ordered list of changes of one
update batch (spec section 3, "Batch"). -/
structure ChangeBatch where
  changes : List Change
deriving DecidableEq

/-- Modelled from the spec: `ChangeBatch.add_change` of the missing
`change_batch.py` appends one change to the batch. -/
def ChangeBatch.add_change (b : ChangeBatch) (c : Change) : ChangeBatch :=
  { b with changes := b.changes ++ [c] }

/-- Embedding of `skip_apex_soa_ns` (`app.py` lines 132-151): drop every
record whose `Name` equals the zone name and whose `Type` is `SOA` or
`NS`; keep the rest in order. -/
def skip_apex_soa_ns (zone : Zone) (records : List R53Record) : List R53Record :=
  records.filter fun record =>
    !(record.Name == zone.name && (record.«Type» == "SOA" || record.«Type» == "NS"))

/-- Embedding of the inner helper `is_in_set` of `compute_changes`:
true iff some entry of `s` has the same `Name` as `record`. -/
def is_in_set (record : R53Record) (s : List R53Record) : Bool :=
  s.any fun entry => entry.Name == record.Name

/-- Python compares strings lexicographically by code point; `sorted`
with `key=lambda r: r.Name` uses this comparison, embedded here on the
underlying character lists. -/
def nameLe (r1 r2 : R53Record) : Prop :=
  r1.Name.data ≤ r2.Name.data

instance : DecidableRel nameLe :=
  fun r1 r2 => inferInstanceAs (Decidable (r1.Name.data ≤ r2.Name.data))

instance : IsTotal R53Record nameLe :=
  ⟨fun r1 r2 => le_total r1.Name.data r2.Name.data⟩

instance : IsTrans R53Record nameLe :=
  ⟨fun _ _ _ h1 h2 => le_trans h1 h2⟩

/-- Embedding of the inner helper `sort_by_name` of `compute_changes`:
Python's stable `sorted(s, key=lambda r: r.Name)`, realised as a stable
insertion sort by `Name`. -/
def sort_by_name (s : List R53Record) : List R53Record :=
  List.insertionSort nameLe s

/-- The set `to_delete = existing - desired` of `compute_changes`
(after the apex filter): record collections are turned into frozensets,
so structurally equal duplicates collapse; set difference is by full
structural equality. Frozenset iteration order is unspecified in
Python; it is modelled as the deduplicated input order, which no claim
depends on (the lists are re-sorted or counted afterwards). -/
def to_delete_set (zone : Zone) (existing desired : List R53Record) : List R53Record :=
  ((skip_apex_soa_ns zone existing).dedup).filter fun r =>
    decide (r ∉ (skip_apex_soa_ns zone desired).dedup)

/-- The set `to_add = desired - existing` of `compute_changes`, see
`to_delete_set`. -/
def to_add_set (zone : Zone) (existing desired : List R53Record) : List R53Record :=
  ((skip_apex_soa_ns zone desired).dedup).filter fun r =>
    decide (r ∉ (skip_apex_soa_ns zone existing).dedup)

/-- Embedding of `compute_changes` (`app.py` lines 309-362). The CREATE
and UPSERT changes are appended in `Name` order; each DELETE change is
then inserted at position 0 (`changes.insert(0, ...)`) while iterating
in `Name` order, which leaves the DELETE prefix reversed, i.e. in
descending `Name` order. -/
def compute_changes (zone : Zone) (existing_records desired_records : List R53Record)
    (use_upsert : Bool) : List Change :=
  let to_delete := to_delete_set zone existing_records desired_records
  let to_add := to_add_set zone existing_records desired_records
  if to_add ≠ [] ∨ to_delete ≠ [] then
    let adds := (sort_by_name to_add).map fun record =>
      { zone := zone
        operation := if use_upsert && is_in_set record to_delete then "UPSERT" else "CREATE"
        record := record
        prio := 0 : Change }
    let dels := ((sort_by_name to_delete).filter fun record =>
      !(use_upsert && is_in_set record to_add)).map fun record =>
      { zone := zone, operation := "DELETE", record := record, prio := 0 : Change }
    dels.reverse ++ adds
  else []

/-- The inner helper `is_same_zone` of `assign_change_priority`. -/
def is_same_zone (zone : Zone) (change : Change) : Bool :=
  change.zone.id == zone.id

/-- The inner helper `is_alias` of `assign_change_priority`: an alias
record belonging to the same zone. -/
def is_alias_change (zone : Zone) (change : Change) : Bool :=
  change.record.is_alias && is_same_zone zone change

/-- The inner helper `is_new_alias` of `assign_change_priority`: a
same-zone alias being created or upserted. -/
def is_new_alias (zone : Zone) (change : Change) : Bool :=
  is_alias_change zone change && (change.operation == "CREATE" || change.operation == "UPSERT")

/-- One `rr_prio[k] += v` update of the `defaultdict(int)` weight map of
`assign_change_priority`. -/
def incrBy (m : String → Nat) (k : String) (v : Nat) : String → Nat :=
  fun x => if x = k then m k + v else m x

/-- First weight-map pass of `assign_change_priority`: every same-zone
new alias increments `rr_prio[record.AliasTarget.DNSName]` by 1. -/
def rrPrioPass1 (zone : Zone) (change_operations : List Change) : String → Nat :=
  change_operations.foldl
    (fun m change =>
      if is_new_alias zone change then incrBy m change.record.aliasDNSName 1 else m)
    fun _ => 0

/-- Second weight-map pass of `assign_change_priority`: every same-zone
new alias adds the current `rr_prio[record.Name]` into
`rr_prio[record.AliasTarget.DNSName]`, reading the map as already
updated by earlier iterations of this same pass. -/
def rrPrioPass2 (zone : Zone) (change_operations : List Change) : String → Nat :=
  change_operations.foldl
    (fun m change =>
      if is_new_alias zone change then
        incrBy m change.record.aliasDNSName (m change.record.Name)
      else m)
    (rrPrioPass1 zone change_operations)

/-- Embedding of `assign_change_priority` (`app.py` lines 227-265).
Python mutates `change["prio"]` in place; the embedding returns the
updated list, every change getting `prio = rr_prio[record.Name]` from
the final weight map. -/
def assign_change_priority (zone : Zone) (change_operations : List Change) : List Change :=
  let rr_prio := rrPrioPass2 zone change_operations
  change_operations.map fun change => { change with prio := rr_prio change.record.Name }

/-- Python's stable `sorted(change_operations, key=lambda c: c["prio"],
reverse=True)` of `changes_to_r53_updates`, realised as a stable
insertion sort by descending priority. -/
def prioGe (c1 c2 : Change) : Prop :=
  c2.prio ≤ c1.prio

instance : DecidableRel prioGe :=
  fun c1 c2 => inferInstanceAs (Decidable (c2.prio ≤ c1.prio))

instance : IsTotal Change prioGe :=
  ⟨fun c1 c2 => le_total c2.prio c1.prio⟩

instance : IsTrans Change prioGe :=
  ⟨fun _ _ _ h1 h2 => le_trans h2 h1⟩

/-- The sorted change list consumed by the batching loop of
`changes_to_r53_updates`. -/
def sortedByPrioDesc (change_operations : List Change) : List Change :=
  List.insertionSort prioGe change_operations

/-- Embedding of the batching loop of `changes_to_r53_updates`
(`app.py` lines 285-304): walk the sorted changes, start a new batch
whenever the priority differs from the previous change's, flush
non-empty batches. -/
def batchLoop : List Change → List ChangeBatch → ChangeBatch → Option Nat → List ChangeBatch
  | [], r53_update_batches, current_batch, _ =>
      if current_batch.changes.isEmpty then r53_update_batches
      else r53_update_batches ++ [current_batch]
  | change :: rest, r53_update_batches, current_batch, current_prio =>
      let order := change.prio
      let current_prio := match current_prio with
        | none => order
        | some p => p
      if order ≠ current_prio then
        let r53_update_batches :=
          if current_batch.changes.isEmpty then r53_update_batches
          else r53_update_batches ++ [current_batch]
        batchLoop rest r53_update_batches (ChangeBatch.mk [] |>.add_change change) (some order)
      else
        batchLoop rest r53_update_batches (current_batch.add_change change) (some order)

/-- Embedding of `changes_to_r53_updates` (`app.py` lines 268-306):
assign priorities, then split the priority-descending sorted change
list into update batches. -/
def changes_to_r53_updates (zone : Zone) (change_operations : List Change) : List ChangeBatch :=
  let change_operations := assign_change_priority zone change_operations
  batchLoop (sortedByPrioDesc change_operations) [] (ChangeBatch.mk []) none

/-- Length of `dropWhile` never exceeds the input length (termination
helper for `splitRuns`). -/
theorem length_dropWhile_le' {α : Type} (p : α → Bool) :
    ∀ l : List α, (l.dropWhile p).length ≤ l.length
  | [] => Nat.le_refl _
  | a :: l => by
    rw [List.dropWhile_cons]
    by_cases h : p a = true
    · simp only [h, if_true]
      exact Nat.le_succ_of_le (length_dropWhile_le' p l)
    · simp [h]

/-- Maximal runs of equal adjacent priority: the sequence of batch
contents the batching loop of `changes_to_r53_updates` produces when it
walks a change list. -/
def splitRuns : List Change → List (List Change)
  | [] => []
  | c :: rest =>
    (c :: rest.takeWhile fun d => d.prio == c.prio) ::
      splitRuns (rest.dropWhile fun d => d.prio == c.prio)
termination_by l => l.length
decreasing_by
  simp only [List.length_cons]
  exact Nat.lt_succ_of_le (length_dropWhile_le' _ rest)

/-- Priority shared by a batch: the priority of its first change (0 for
an empty batch, which the planner never emits). -/
def batchPrio (b : ChangeBatch) : Nat :=
  match b.changes with
  | [] => 0
  | c :: _ => c.prio

/-- Number of changes carrying the given operation. -/
def countOp (op : String) (cs : List Change) : Nat :=
  cs.countP fun c => c.operation == op

/-- Modelled from the spec: the changes of the input list that are
same-zone, newly-created-or-upserted aliases (spec section 4.3,
steps 2-3). -/
def newAliasChanges (zone : Zone) (changes : List Change) : List Change :=
  changes.filter (is_new_alias zone)

/-- Modelled from the spec: first pass of the `targetWeight` map of
spec section 4.3 — for every same-zone new alias change, increment
`targetWeight[change.record.AliasTarget.DNSName]` by 1, starting from
the all-zero default map. -/
def targetWeight1 (zone : Zone) (changes : List Change) : String → Nat :=
  (newAliasChanges zone changes).foldl
    (fun m d => incrBy m d.record.aliasDNSName 1)
    fun _ => 0

/-- Modelled from the spec: second pass of the `targetWeight` map of
spec section 4.3 — for every such alias change again, add the current
`targetWeight[change.record.Name]` into
`targetWeight[change.record.AliasTarget.DNSName]`. -/
def targetWeight (zone : Zone) (changes : List Change) : String → Nat :=
  (newAliasChanges zone changes).foldl
    (fun m d => incrBy m d.record.aliasDNSName (m d.record.Name))
    (targetWeight1 zone changes)

/-- Sample zone for the concrete scenarios. -/
def zEx : Zone := ⟨"ZEXAMPLE", "example.com."⟩

/-- Sample record `target.example.com. A 127.0.0.1` of the priority
ordering scenario. -/
def targetRec : R53Record :=
  { Name := "target.example.com.", «Type» := "A",
    ResourceRecords := [⟨"127.0.0.1"⟩] }

/-- Sample alias record `alias.example.com.` pointing at
`target.example.com.` for the priority ordering scenario. -/
def aliasRec : R53Record :=
  { Name := "alias.example.com.", «Type» := "A",
    AliasTarget := some ⟨"target.example.com.", "ZEXAMPLE", false⟩ }

/-- Sample record `a.example.com. A` (delete ordering scenario). -/
def recAEx : R53Record :=
  { Name := "a.example.com.", «Type» := "A", ResourceRecords := [⟨"1.1.1.1"⟩] }

/-- Sample record `b.example.com. A` (delete ordering scenario). -/
def recBEx : R53Record :=
  { Name := "b.example.com.", «Type» := "A", ResourceRecords := [⟨"2.2.2.2"⟩] }

/-- Sample apex SOA record of zone `example.com.`. -/
def apexSOARec : R53Record := { Name := "example.com.", «Type» := "SOA" }

/-- Sample non-infrastructure record at the zone apex name. -/
def apexARec : R53Record := { Name := "example.com.", «Type» := "A" }

/-- Sample TXT record at name `n.example.com.`. -/
def recTXTEx : R53Record := { Name := "n.example.com.", «Type» := "TXT" }

/-- Sample A record at name `n.example.com.` (same name as `recTXTEx`,
different type). -/
def recAnEx : R53Record := { Name := "n.example.com.", «Type» := "A" }

/-- Sample non-alias change used by witnesses. -/
def changeEx : Change := { zone := zEx, operation := "CREATE", record := recAEx, prio := 0 }

/-- Folding over the filtered list is folding over the whole list with a
guard, the shape shared by the two weight-map passes. -/
theorem foldl_filter_guard {α β : Type} (p : α → Bool) (f : β → α → β) :
    ∀ (l : List α) (i : β),
      (l.filter p).foldl f i = l.foldl (fun m c => if p c then f m c else m) i := by
  intro l
  induction l with
  | nil => intro i; rfl
  | cons a l ih =>
    intro i
    rw [List.filter_cons]
    by_cases h : p a = true
    · simp [h, ih]
    · rw [Bool.not_eq_true] at h
      simp [h, ih]

/-- Weight-map pass 1 of the source equals the spec-modelled
`targetWeight1`. -/
theorem rrPrioPass1_eq_targetWeight1 (zone : Zone) (cs : List Change) :
    rrPrioPass1 zone cs = targetWeight1 zone cs := by
  unfold rrPrioPass1 targetWeight1 newAliasChanges
  rw [foldl_filter_guard]

/-- Weight-map pass 2 of the source equals the spec-modelled
`targetWeight`. -/
theorem rrPrioPass2_eq_targetWeight (zone : Zone) (cs : List Change) :
    rrPrioPass2 zone cs = targetWeight zone cs := by
  unfold rrPrioPass2 targetWeight newAliasChanges
  rw [foldl_filter_guard, rrPrioPass1_eq_targetWeight1]

/-- Reading the weight map at a key never written leaves the initial
value: both passes only write at alias-target names. -/
theorem foldl_incrBy_untouched (f : (String → Nat) → Change → Nat) :
    ∀ (l : List Change) (m : String → Nat) (k : String),
      (∀ d ∈ l, d.record.aliasDNSName ≠ k) →
      (l.foldl (fun m d => incrBy m d.record.aliasDNSName (f m d)) m) k = m k := by
  intro l
  induction l with
  | nil => intro m k _; rfl
  | cons d l ih =>
    intro m k hk
    rw [List.foldl_cons]
    rw [ih _ k fun e he => hk e (List.mem_cons_of_mem d he)]
    have hne : k ≠ d.record.aliasDNSName := fun h => hk d (List.mem_cons_self d l) h.symm
    simp [incrBy, hne]

/-- Weight of a name no new alias points at: 0. -/
theorem targetWeight_eq_zero (zone : Zone) (cs : List Change) (k : String)
    (hk : ∀ d ∈ newAliasChanges zone cs, d.record.aliasDNSName ≠ k) :
    targetWeight zone cs k = 0 := by
  unfold targetWeight targetWeight1
  rw [foldl_incrBy_untouched (fun m d => m d.record.Name) _ _ k hk,
    foldl_incrBy_untouched (fun _ _ => 1) _ _ k hk]

/-- C1: for every zone, every record collection `X` and either value of
`useUpsert`, `computeChanges(zone, X, X, *)` returns the empty change
list. -/
theorem compute_changes_idempotent (zone : Zone) (X : List R53Record) (u : Bool) :
    compute_changes zone X X u = [] := by
  have hd : to_delete_set zone X X = [] := by
    rw [to_delete_set, List.filter_eq_nil_iff]
    intro a ha
    simp only [decide_not, Bool.not_eq_true', decide_eq_false_iff_not, not_not]
    exact ha
  have ha : to_add_set zone X X = [] := by
    rw [to_add_set, List.filter_eq_nil_iff]
    intro a ha
    simp only [decide_not, Bool.not_eq_true', decide_eq_false_iff_not, not_not]
    exact ha
  unfold compute_changes
  simp [hd, ha]

/-- C2: loading `target.example.com. A 127.0.0.1` (new) together with
`alias.example.com.` aliasing `target.example.com.` (new) into an empty
zone plans exactly two batches: first the CREATE of the target with
priority 1, then the CREATE of the alias with priority 0. -/
theorem priority_ordering_scenario :
    ∀ u : Bool,
      changes_to_r53_updates zEx (compute_changes zEx [] [targetRec, aliasRec] u) =
        [ChangeBatch.mk [{ zone := zEx, operation := "CREATE", record := targetRec, prio := 1 }],
         ChangeBatch.mk [{ zone := zEx, operation := "CREATE", record := aliasRec, prio := 0 }]] := by
  decide

/-- C9: `assign_change_priority` writes only the `prio` field: the
returned list has the same length and order and every change keeps its
zone, operation and record. -/
theorem assign_change_priority_frame (zone : Zone) (cs : List Change) :
    (assign_change_priority zone cs).length = cs.length ∧
    ((assign_change_priority zone cs).map fun c => (c.zone, c.operation, c.record)) =
      cs.map fun c => (c.zone, c.operation, c.record) := by
  constructor
  · simp [assign_change_priority]
  · simp only [assign_change_priority, List.map_map]
    rfl

/-- C3: `assign_change_priority` gives every change the priority
`targetWeight[record.Name]` where `targetWeight` is built by the two
spec passes over the same-zone new-alias changes, and that priority is 0
whenever the record's name is not the alias target of any such change. -/
theorem assign_change_priority_formula (zone : Zone) (cs : List Change) :
    assign_change_priority zone cs =
      (cs.map fun c => { c with prio := targetWeight zone cs c.record.Name }) ∧
    ∀ c ∈ cs,
      (c.record.Name ∉ (newAliasChanges zone cs).map fun d => d.record.aliasDNSName) →
      targetWeight zone cs c.record.Name = 0 := by
  constructor
  · unfold assign_change_priority
    rw [rrPrioPass2_eq_targetWeight]
  · intro c _ hni
    apply targetWeight_eq_zero
    intro d hd heq
    exact hni (heq ▸ List.mem_map_of_mem _ hd)

/-- Witness for C3 at a concrete input: a single non-alias CREATE change
whose record name is no alias target gets weight 0. -/
theorem assign_change_priority_formula_witness :
    (changeEx ∈ [changeEx] ∧
      changeEx.record.Name ∉ (newAliasChanges zEx [changeEx]).map fun d =>
        d.record.aliasDNSName) ∧
    targetWeight zEx [changeEx] changeEx.record.Name = 0 :=
  ⟨⟨by decide, by decide⟩,
    (assign_change_priority_formula zEx [changeEx]).2 changeEx (by decide) (by decide)⟩

/-- Records surviving `skip_apex_soa_ns` are not apex SOA/NS records. -/
theorem mem_skip_apex_not {zone : Zone} {l : List R53Record} {r : R53Record}
    (h : r ∈ skip_apex_soa_ns zone l) :
    ¬ (r.Name = zone.name ∧ (r.«Type» = "SOA" ∨ r.«Type» = "NS")) := by
  have h2 := (List.mem_filter.mp h).2
  intro hc
  rcases hc with ⟨h3, h4 | h4⟩ <;> simp [h3, h4] at h2

/-- Every change produced by `compute_changes` carries a record drawn
from `to_delete` or `to_add`. -/
theorem record_mem_of_mem_compute {zone : Zone} {ex de : List R53Record} {u : Bool}
    {c : Change} (h : c ∈ compute_changes zone ex de u) :
    c.record ∈ to_delete_set zone ex de ∨ c.record ∈ to_add_set zone ex de := by
  simp only [compute_changes] at h
  split at h
  · rcases List.mem_append.mp h with hd | ha
    · rcases List.mem_map.mp (List.mem_reverse.mp hd) with ⟨r, hr, rfl⟩
      exact Or.inl ((List.mem_insertionSort nameLe).mp (List.mem_filter.mp hr).1)
    · rcases List.mem_map.mp ha with ⟨r, hr, rfl⟩
      exact Or.inr ((List.mem_insertionSort nameLe).mp hr)
  · exact absurd h (List.not_mem_nil c)

/-- C7: no change returned by `compute_changes` carries an apex SOA/NS
record of the zone; such records are filtered from both collections
before the comparison. -/
theorem compute_changes_apex_exclusion (zone : Zone) (ex de : List R53Record) (u : Bool) :
    ∀ c ∈ compute_changes zone ex de u,
      ¬ (c.record.Name = zone.name ∧ (c.record.«Type» = "SOA" ∨ c.record.«Type» = "NS")) := by
  intro c hc
  rcases record_mem_of_mem_compute hc with h | h
  · exact mem_skip_apex_not (List.mem_dedup.mp (List.mem_filter.mp h).1)
  · exact mem_skip_apex_not (List.mem_dedup.mp (List.mem_filter.mp h).1)

/-- Witness for C7 at a concrete input: the single CREATE change
produced for `a.example.com.` is no apex SOA/NS record. -/
theorem compute_changes_apex_exclusion_witness :
    (({ zone := zEx, operation := "CREATE", record := recAEx, prio := 0 } : Change) ∈
      compute_changes zEx [] [recAEx] false) ∧
    ¬ (recAEx.Name = zEx.name ∧ (recAEx.«Type» = "SOA" ∨ recAEx.«Type» = "NS")) :=
  ⟨by decide, compute_changes_apex_exclusion zEx [] [recAEx] false
    { zone := zEx, operation := "CREATE", record := recAEx, prio := 0 } (by decide)⟩

/-- A non-apex record passes `skip_apex_soa_ns` untouched. -/
theorem skip_singleton (zone : Zone) (r : R53Record)
    (h : ¬ (r.Name = zone.name ∧ (r.«Type» = "SOA" ∨ r.«Type» = "NS"))) :
    skip_apex_soa_ns zone [r] = [r] := by
  rw [skip_apex_soa_ns, List.filter_eq_self]
  intro a ha
  rw [List.mem_singleton] at ha
  subst ha
  push_neg at h
  by_cases h1 : a.Name = zone.name
  · have h2 := h h1
    simp [h1, h2.1, h2.2]
  · simp [h1]

/-- Sorting a singleton changes nothing. -/
theorem sort_by_name_singleton (r : R53Record) : sort_by_name [r] = [r] := rfl

/-- C5 (amended): the upsert merge holds for non-apex records — one
existing record and one desired record at the same name, structurally
different, with `useUpsert` on, produce exactly one UPSERT of the
desired record, provided neither is an apex SOA/NS record of the
zone. -/
theorem compute_changes_upsert_merge (zone : Zone) (n : String) (A Ap : R53Record)
    (hA : A.Name = n) (hAp : Ap.Name = n) (hne : A ≠ Ap)
    (hAx : ¬ (A.Name = zone.name ∧ (A.«Type» = "SOA" ∨ A.«Type» = "NS")))
    (hApx : ¬ (Ap.Name = zone.name ∧ (Ap.«Type» = "SOA" ∨ Ap.«Type» = "NS"))) :
    compute_changes zone [A] [Ap] true =
      [{ zone := zone, operation := "UPSERT", record := Ap, prio := 0 }] := by
  have hnes : Ap ≠ A := hne.symm
  have hdel : to_delete_set zone [A] [Ap] = [A] := by
    rw [to_delete_set, skip_singleton zone A hAx, skip_singleton zone Ap hApx]
    simp [hne]
  have hadd : to_add_set zone [A] [Ap] = [Ap] := by
    rw [to_add_set, skip_singleton zone A hAx, skip_singleton zone Ap hApx]
    simp [hnes]
  have hin1 : is_in_set Ap [A] = true := by
    simp [is_in_set, hA, hAp]
  have hin2 : is_in_set A [Ap] = true := by
    simp [is_in_set, hA, hAp]
  simp only [compute_changes, hdel, hadd]
  rw [if_pos (Or.inl (by simp))]
  simp [sort_by_name_singleton, hin1, hin2]

/-- Counterexample to C5 as stated: with an apex SOA existing record and
a same-name desired record, `computeChanges` emits a CREATE, not the
claimed single UPSERT (the apex filter removes the SOA record before
diffing). -/
theorem upsert_merge_counterexample :
    (compute_changes zEx [apexSOARec] [apexARec] true).map (fun c => (c.operation, c.record)) =
      [("CREATE", apexARec)] ∧
    (compute_changes zEx [apexSOARec] [apexARec] true).map (fun c => c.operation) ≠
      ["UPSERT"] := by
  decide

/-- Witness for the amended C5 at a concrete input: a TXT record
replaced by an A record at the same non-apex name merges into one
UPSERT. -/
theorem compute_changes_upsert_merge_witness :
    (recTXTEx.Name = "n.example.com." ∧ recAnEx.Name = "n.example.com." ∧
      recTXTEx ≠ recAnEx ∧
      ¬ (recTXTEx.Name = zEx.name ∧ (recTXTEx.«Type» = "SOA" ∨ recTXTEx.«Type» = "NS")) ∧
      ¬ (recAnEx.Name = zEx.name ∧ (recAnEx.«Type» = "SOA" ∨ recAnEx.«Type» = "NS"))) ∧
    compute_changes zEx [recTXTEx] [recAnEx] true =
      [{ zone := zEx, operation := "UPSERT", record := recAnEx, prio := 0 }] :=
  ⟨by decide,
    compute_changes_upsert_merge zEx "n.example.com." recTXTEx recAnEx
      (by decide) (by decide) (by decide) (by decide) (by decide)⟩

/-- Surviving the apex filter preserves membership in the original
collection. -/
theorem mem_of_mem_skip {zone : Zone} {l : List R53Record} {r : R53Record}
    (h : r ∈ skip_apex_soa_ns zone l) : r ∈ l :=
  (List.mem_filter.mp h).1

/-- For disjoint collections the diff keeps every filtered existing
record in `to_delete`. -/
theorem to_delete_set_of_disjoint (zone : Zone) (ex de : List R53Record)
    (hnE : ex.Nodup) (hnD : de.Nodup)
    (hdisj : ∀ r ∈ ex, r ∉ de) :
    to_delete_set zone ex de = skip_apex_soa_ns zone ex ∧
    to_add_set zone ex de = skip_apex_soa_ns zone de := by
  have hE : (skip_apex_soa_ns zone ex).dedup = skip_apex_soa_ns zone ex :=
    List.dedup_eq_self.mpr (hnE.filter _)
  have hD : (skip_apex_soa_ns zone de).dedup = skip_apex_soa_ns zone de :=
    List.dedup_eq_self.mpr (hnD.filter _)
  constructor
  · rw [to_delete_set, hE, hD, List.filter_eq_self]
    intro r hr
    exact decide_eq_true fun hmem =>
      hdisj r (mem_of_mem_skip hr) (mem_of_mem_skip hmem)
  · rw [to_add_set, hE, hD, List.filter_eq_self]
    intro r hr
    exact decide_eq_true fun hmem =>
      hdisj r (mem_of_mem_skip hmem) (mem_of_mem_skip hr)

/-- C6 (amended): when `existing` and `desired` (duplicate-free, per the
data model) share no records, `computeChanges` returns exactly one
CREATE per non-apex desired record and one DELETE per non-apex existing
record and no UPSERTs — provided `useUpsert` is false or no surviving
existing record shares a `Name` with a surviving desired record (with
`useUpsert` on, a shared name merges a CREATE/DELETE pair into one
UPSERT instead). -/
theorem compute_changes_disjoint (zone : Zone) (ex de : List R53Record) (u : Bool)
    (hnE : ex.Nodup) (hnD : de.Nodup)
    (hdisj : ∀ r ∈ ex, r ∉ de)
    (hmerge : u = false ∨
      ∀ r ∈ skip_apex_soa_ns zone ex, ∀ s ∈ skip_apex_soa_ns zone de, r.Name ≠ s.Name) :
    (((compute_changes zone ex de u).filter fun c => c.operation == "CREATE").map
        fun c => c.record).Perm (skip_apex_soa_ns zone de) ∧
    (((compute_changes zone ex de u).filter fun c => c.operation == "DELETE").map
        fun c => c.record).Perm (skip_apex_soa_ns zone ex) ∧
    countOp "UPSERT" (compute_changes zone ex de u) = 0 := by
  obtain ⟨hdel, hadd⟩ := to_delete_set_of_disjoint zone ex de hnE hnD hdisj
  have hops : ∀ r ∈ sort_by_name (skip_apex_soa_ns zone de),
      (u && is_in_set r (skip_apex_soa_ns zone ex)) = false := by
    intro r hr
    rcases hmerge with hu | hnames
    · rw [hu, Bool.false_and]
    · have hin : is_in_set r (skip_apex_soa_ns zone ex) = false := by
        rw [is_in_set, List.any_eq_false]
        intro entry he
        have hne := hnames entry he r ((List.mem_insertionSort nameLe).mp hr)
        simp [hne]
      rw [hin, Bool.and_false]
  have hkeep : ∀ r ∈ sort_by_name (skip_apex_soa_ns zone ex),
      (!(u && is_in_set r (skip_apex_soa_ns zone de))) = true := by
    intro r hr
    rcases hmerge with hu | hnames
    · rw [hu, Bool.false_and]; rfl
    · have hin : is_in_set r (skip_apex_soa_ns zone de) = false := by
        rw [is_in_set, List.any_eq_false]
        intro entry he
        have hne : entry.Name ≠ r.Name := fun heq =>
          hnames r ((List.mem_insertionSort nameLe).mp hr) entry he heq.symm
        simp [hne]
      rw [hin, Bool.and_false]; rfl
  by_cases hif : (to_add_set zone ex de ≠ [] ∨ to_delete_set zone ex de ≠ [])
  · have hcomp : compute_changes zone ex de u =
        ((sort_by_name (skip_apex_soa_ns zone ex)).map fun record =>
          ({ zone := zone, operation := "DELETE", record := record, prio := 0 } : Change)).reverse
        ++ (sort_by_name (skip_apex_soa_ns zone de)).map fun record =>
          ({ zone := zone, operation := "CREATE", record := record, prio := 0 } : Change) := by
      simp only [compute_changes, hdel, hadd]
      rw [if_pos (hdel ▸ hadd ▸ hif)]
      congr 1
      · congr 1
        rw [List.filter_eq_self.mpr hkeep]
      · apply List.map_congr_left
        intro r hr
        rw [hops r hr]
        rfl
    rw [hcomp]
    have hfc : ((sort_by_name (skip_apex_soa_ns zone ex)).map fun record =>
        ({ zone := zone, operation := "DELETE", record := record, prio := 0 } : Change)).reverse.filter
          (fun c => c.operation == "CREATE") = [] := by
      rw [List.filter_eq_nil_iff]
      intro c hc
      rcases List.mem_map.mp (List.mem_reverse.mp hc) with ⟨r, _, rfl⟩
      simp
    have hfd : ((sort_by_name (skip_apex_soa_ns zone de)).map fun record =>
        ({ zone := zone, operation := "CREATE", record := record, prio := 0 } : Change)).filter
          (fun c => c.operation == "DELETE") = [] := by
      rw [List.filter_eq_nil_iff]
      intro c hc
      rcases List.mem_map.mp hc with ⟨r, _, rfl⟩
      simp
    have hfc2 : ((sort_by_name (skip_apex_soa_ns zone de)).map fun record =>
        ({ zone := zone, operation := "CREATE", record := record, prio := 0 } : Change)).filter
          (fun c => c.operation == "CREATE") =
        (sort_by_name (skip_apex_soa_ns zone de)).map fun record =>
          ({ zone := zone, operation := "CREATE", record := record, prio := 0 } : Change) := by
      rw [List.filter_eq_self]
      intro c hc
      rcases List.mem_map.mp hc with ⟨r, _, rfl⟩
      simp
    have hfd2 : ((sort_by_name (skip_apex_soa_ns zone ex)).map fun record =>
        ({ zone := zone, operation := "DELETE", record := record, prio := 0 } : Change)).reverse.filter
          (fun c => c.operation == "DELETE") =
        ((sort_by_name (skip_apex_soa_ns zone ex)).map fun record =>
          ({ zone := zone, operation := "DELETE", record := record, prio := 0 } : Change)).reverse := by
      rw [List.filter_eq_self]
      intro c hc
      rcases List.mem_map.mp (List.mem_reverse.mp hc) with ⟨r, _, rfl⟩
      simp
    refine ⟨?_, ?_, ?_⟩
    · rw [List.filter_append, hfc, hfc2, List.nil_append, List.map_map]
      have : ((fun c : Change => c.record) ∘ fun record =>
          ({ zone := zone, operation := "CREATE", record := record, prio := 0 } : Change)) =
          fun r : R53Record => r := rfl
      rw [this, List.map_id']
      exact List.perm_insertionSort nameLe _
    · rw [List.filter_append, hfd2, hfd, List.append_nil, ← List.map_reverse, List.map_map]
      have : ((fun c : Change => c.record) ∘ fun record =>
          ({ zone := zone, operation := "DELETE", record := record, prio := 0 } : Change)) =
          fun r : R53Record => r := rfl
      rw [this, List.map_id']
      exact ((sort_by_name (skip_apex_soa_ns zone ex)).reverse_perm).trans
        (List.perm_insertionSort nameLe _)
    · rw [countOp, List.countP_append]
      have h1 : ∀ c ∈ ((sort_by_name (skip_apex_soa_ns zone ex)).map fun record =>
          ({ zone := zone, operation := "DELETE", record := record, prio := 0 } : Change)).reverse,
          ¬ ((fun c : Change => c.operation == "UPSERT") c = true) := by
        intro c hc
        rcases List.mem_map.mp (List.mem_reverse.mp hc) with ⟨r, _, rfl⟩
        simp
      have h2 : ∀ c ∈ (sort_by_name (skip_apex_soa_ns zone de)).map fun record =>
          ({ zone := zone, operation := "CREATE", record := record, prio := 0 } : Change),
          ¬ ((fun c : Change => c.operation == "UPSERT") c = true) := by
        intro c hc
        rcases List.mem_map.mp hc with ⟨r, _, rfl⟩
        simp
      rw [List.countP_eq_zero.mpr h1, List.countP_eq_zero.mpr h2]
  · push_neg at hif
    obtain ⟨ha, hd⟩ := hif
    have hD : skip_apex_soa_ns zone de = [] := by rw [← hadd]; exact ha
    have hE : skip_apex_soa_ns zone ex = [] := by rw [← hdel]; exact hd
    have hout : compute_changes zone ex de u = [] := by
      simp only [compute_changes]
      rw [if_neg]
      push_neg
      exact ⟨ha, hd⟩
    rw [hout, hD, hE]
    exact ⟨List.Perm.refl [], List.Perm.refl [], rfl⟩

/-- Counterexample to C6 as stated: structurally disjoint collections
that share a record `Name`, diffed with `useUpsert = true`, produce one
UPSERT and no CREATE, not the claimed CREATE/DELETE pair. -/
theorem disjoint_counterexample :
    (compute_changes zEx [recTXTEx] [recAnEx] true).map (fun c => c.operation) = ["UPSERT"] ∧
    ¬ ((compute_changes zEx [recTXTEx] [recAnEx] true).countP
        (fun c => c.operation == "CREATE") = 1 ∧
      (compute_changes zEx [recTXTEx] [recAnEx] true).countP
        (fun c => c.operation == "DELETE") = 1 ∧
      countOp "UPSERT" (compute_changes zEx [recTXTEx] [recAnEx] true) = 0) := by
  decide

/-- Witness for the amended C6 at a concrete input: disjoint singleton
collections with distinct names give one CREATE and one DELETE and no
UPSERT. -/
theorem compute_changes_disjoint_witness :
    ([recAEx].Nodup ∧ [recBEx].Nodup ∧ (∀ r ∈ [recAEx], r ∉ [recBEx]) ∧
      ((false : Bool) = false ∨
        ∀ r ∈ skip_apex_soa_ns zEx [recAEx], ∀ s ∈ skip_apex_soa_ns zEx [recBEx],
          r.Name ≠ s.Name)) ∧
    (((compute_changes zEx [recAEx] [recBEx] false).filter fun c =>
        c.operation == "CREATE").map fun c => c.record).Perm
      (skip_apex_soa_ns zEx [recBEx]) ∧
    (((compute_changes zEx [recAEx] [recBEx] false).filter fun c =>
        c.operation == "DELETE").map fun c => c.record).Perm
      (skip_apex_soa_ns zEx [recAEx]) ∧
    countOp "UPSERT" (compute_changes zEx [recAEx] [recBEx] false) = 0 :=
  ⟨⟨by decide, by decide, by decide, Or.inl rfl⟩,
    compute_changes_disjoint zEx [recAEx] [recBEx] false
      (by decide) (by decide) (by decide) (Or.inl rfl)⟩

/-- Filtering a DELETE-prefix/other-suffix concatenation by operation
recovers the two parts. -/
theorem filter_delete_parts (dels adds : List Change)
    (h1 : ∀ c ∈ dels, c.operation = "DELETE")
    (h2 : ∀ c ∈ adds, (c.operation == "DELETE") = false) :
    (dels ++ adds).filter (fun c => c.operation == "DELETE") = dels ∧
    (dels ++ adds).filter (fun c => !(c.operation == "DELETE")) = adds := by
  have e1 : dels.filter (fun c => c.operation == "DELETE") = dels :=
    List.filter_eq_self.mpr fun c hc => by rw [h1 c hc]; rfl
  have e2 : adds.filter (fun c => c.operation == "DELETE") = [] :=
    List.filter_eq_nil_iff.mpr fun c hc => by rw [h2 c hc]; exact Bool.false_ne_true
  have e3 : dels.filter (fun c => !(c.operation == "DELETE")) = [] :=
    List.filter_eq_nil_iff.mpr fun c hc => by rw [h1 c hc]; simp
  have e4 : adds.filter (fun c => !(c.operation == "DELETE")) = adds :=
    List.filter_eq_self.mpr fun c hc => by rw [h2 c hc]; rfl
  rw [List.filter_append, List.filter_append, e1, e2, e3, e4, List.append_nil,
    List.nil_append]
  exact ⟨rfl, rfl⟩

/-- C8 (amended): a DELETE is emitted for every `toDelete` record except
when `useUpsert` is true and some `toAdd` record shares its `Name`; the
DELETE changes all precede the CREATE/UPSERT changes in the returned
list; and — because each DELETE is prepended via `insert(0, ...)` while
iterating in ascending `Name` order — the DELETE changes appear sorted
descending (not ascending) by record `Name`. -/
theorem compute_changes_delete_order (zone : Zone) (ex de : List R53Record) (u : Bool) :
    ((((compute_changes zone ex de u).filter fun c => c.operation == "DELETE").map
        fun c => c.record).Perm
      ((to_delete_set zone ex de).filter fun r =>
        !(u && is_in_set r (to_add_set zone ex de)))) ∧
    compute_changes zone ex de u =
      ((compute_changes zone ex de u).filter fun c => c.operation == "DELETE") ++
        ((compute_changes zone ex de u).filter fun c => !(c.operation == "DELETE")) ∧
    List.Sorted (fun r1 r2 : R53Record => nameLe r2 r1)
      (((compute_changes zone ex de u).filter fun c => c.operation == "DELETE").map
        fun c => c.record) := by
  by_cases hif : (to_add_set zone ex de ≠ [] ∨ to_delete_set zone ex de ≠ [])
  · have hcomp : compute_changes zone ex de u =
        (((sort_by_name (to_delete_set zone ex de)).filter fun record =>
          !(u && is_in_set record (to_add_set zone ex de))).map fun record =>
            ({ zone := zone, operation := "DELETE", record := record, prio := 0 } : Change)).reverse
        ++ (sort_by_name (to_add_set zone ex de)).map fun record =>
          ({ zone := zone,
             operation := if u && is_in_set record (to_delete_set zone ex de) then "UPSERT"
               else "CREATE",
             record := record, prio := 0 } : Change) := by
      simp only [compute_changes]
      rw [if_pos hif]
    have hdelpart : ∀ c ∈ (((sort_by_name (to_delete_set zone ex de)).filter fun record =>
        !(u && is_in_set record (to_add_set zone ex de))).map fun record =>
          ({ zone := zone, operation := "DELETE", record := record, prio := 0 } : Change)).reverse,
        c.operation = "DELETE" := by
      intro c hc
      rcases List.mem_map.mp (List.mem_reverse.mp hc) with ⟨r, _, rfl⟩
      rfl
    have haddpart : ∀ c ∈ (sort_by_name (to_add_set zone ex de)).map fun record =>
        ({ zone := zone,
           operation := if u && is_in_set record (to_delete_set zone ex de) then "UPSERT"
             else "CREATE",
           record := record, prio := 0 } : Change),
        (c.operation == "DELETE") = false := by
      intro c hc
      rcases List.mem_map.mp hc with ⟨r, _, rfl⟩
      by_cases h : (u && is_in_set r (to_delete_set zone ex de)) = true
      · simp [h]
      · rw [Bool.not_eq_true] at h
        simp [h]
    obtain ⟨hf1, hf2⟩ := filter_delete_parts _ _ hdelpart haddpart
    rw [hcomp, hf1, hf2]
    refine ⟨?_, rfl, ?_⟩
    · rw [← List.map_reverse, List.map_map]
      have hid : ((fun c : Change => c.record) ∘ fun record =>
          ({ zone := zone, operation := "DELETE", record := record, prio := 0 } : Change)) =
          fun r : R53Record => r := rfl
      rw [hid, List.map_id']
      refine (List.reverse_perm _).trans ?_
      exact (List.perm_insertionSort nameLe (to_delete_set zone ex de)).filter _
    · rw [← List.map_reverse, List.map_map]
      have hid : ((fun c : Change => c.record) ∘ fun record =>
          ({ zone := zone, operation := "DELETE", record := record, prio := 0 } : Change)) =
          fun r : R53Record => r := rfl
      rw [hid, List.map_id']
      rw [List.Sorted, List.pairwise_reverse]
      exact (List.sorted_insertionSort nameLe (to_delete_set zone ex de)).filter _
  · have hout : compute_changes zone ex de u = [] := by
      simp only [compute_changes]
      rw [if_neg hif]
    push_neg at hif
    rw [hout, hif.2]
    exact ⟨List.Perm.refl _, rfl, List.sorted_nil⟩

/-- Counterexample to C8 as stated: deleting `a.example.com.` and
`b.example.com.` yields the DELETE changes in descending name order, so
they are not sorted ascending by record `Name`. -/
theorem delete_order_counterexample :
    (compute_changes zEx [recAEx, recBEx] [] false).map
        (fun c => (c.operation, c.record.Name)) =
      [("DELETE", "b.example.com."), ("DELETE", "a.example.com.")] ∧
    ¬ List.Sorted (fun r1 r2 : R53Record => nameLe r1 r2)
      (((compute_changes zEx [recAEx, recBEx] [] false).filter fun c =>
          c.operation == "DELETE").map fun c => c.record) := by
  decide

/-- A non-nil list is non-empty in the `isEmpty` sense. -/
theorem isEmpty_eq_false_of_ne_nil {α : Type} {l : List α} (h : l ≠ []) :
    l.isEmpty = false := by
  cases l with
  | nil => exact absurd rfl h
  | cons a l => rfl

/-- The concatenation of the runs is the original list. -/
theorem splitRuns_flatten : ∀ l : List Change, (splitRuns l).flatten = l := by
  intro l
  induction l using splitRuns.induct with
  | case1 => simp [splitRuns]
  | case2 c rest ih =>
    rw [splitRuns]
    simp only [List.flatten_cons, ih, List.cons_append]
    rw [List.takeWhile_append_dropWhile]

/-- Runs are never empty. -/
theorem splitRuns_ne_nil : ∀ l : List Change, ∀ g ∈ splitRuns l, g ≠ [] := by
  intro l
  induction l using splitRuns.induct with
  | case1 => intro g hg; rw [splitRuns] at hg; cases hg
  | case2 c rest ih =>
    intro g hg
    rw [splitRuns] at hg
    rcases List.mem_cons.mp hg with rfl | hgrec
    · exact List.cons_ne_nil _ _
    · exact ih g hgrec

/-- Every change of a run has the run's priority (the priority of the
run's first change). -/
theorem splitRuns_run_prio : ∀ l : List Change, ∀ g ∈ splitRuns l,
    ∀ c ∈ g, c.prio = batchPrio (ChangeBatch.mk g) := by
  intro l
  induction l using splitRuns.induct with
  | case1 => intro g hg; rw [splitRuns] at hg; cases hg
  | case2 c rest ih =>
    intro g hg x hx
    rw [splitRuns] at hg
    rcases List.mem_cons.mp hg with rfl | hgrec
    · rcases List.mem_cons.mp hx with rfl | hxtw
      · rfl
      · have hb := List.mem_takeWhile_imp hxtw
        exact eq_of_beq hb
    · exact ih g hgrec x hx

/-- The head of a non-nil `dropWhile` result fails the predicate. -/
theorem dropWhile_head_not {α : Type} (p : α → Bool) :
    ∀ (l : List α) (h : α) (t : List α), l.dropWhile p = h :: t → p h = false := by
  intro l
  induction l with
  | nil => intro h t hc; cases hc
  | cons a l ih =>
    intro h t hc
    rw [List.dropWhile_cons] at hc
    by_cases ha : p a = true
    · rw [if_pos ha] at hc
      exact ih h t hc
    · rw [if_neg ha] at hc
      injection hc with h1 _
      rw [Bool.not_eq_true] at ha
      rw [← h1]
      exact ha

/-- In a priority-descending sorted list, everything after the first run
has strictly smaller priority than the head. -/
theorem sorted_dropWhile_lt (c : Change) (rest : List Change)
    (hs : List.Sorted prioGe (c :: rest)) :
    ∀ x ∈ rest.dropWhile (fun d => d.prio == c.prio), x.prio < c.prio := by
  intro x hx
  cases hdw : rest.dropWhile (fun d => d.prio == c.prio) with
  | nil => rw [hdw] at hx; cases hx
  | cons h t =>
    rw [hdw] at hx
    have hh : (h.prio == c.prio) = false := dropWhile_head_not _ rest h t hdw
    have hhne : h.prio ≠ c.prio := by simpa using hh
    have hhmem : h ∈ rest :=
      (List.dropWhile_sublist (fun d : Change => d.prio == c.prio)).subset
        (hdw ▸ List.mem_cons_self h t)
    have hhle : h.prio ≤ c.prio := (List.sorted_cons.mp hs).1 h hhmem
    have hhlt : h.prio < c.prio := lt_of_le_of_ne hhle hhne
    rcases List.mem_cons.mp hx with rfl | hxt
    · exact hhlt
    · have hsorted : List.Sorted prioGe (h :: t) :=
        hdw ▸ ((List.sorted_cons.mp hs).2).sublist
          (List.dropWhile_sublist (fun d : Change => d.prio == c.prio))
      exact lt_of_le_of_lt ((List.sorted_cons.mp hsorted).1 x hxt) hhlt

/-- In a priority-descending sorted list, the head's priority class is
exactly the leading run. -/
theorem sorted_filter_eq_takeWhile (c : Change) (rest : List Change)
    (hs : List.Sorted prioGe (c :: rest)) :
    rest.filter (fun d => d.prio == c.prio) = rest.takeWhile fun d => d.prio == c.prio := by
  have e1 : (rest.takeWhile fun d => d.prio == c.prio).filter
      (fun d => d.prio == c.prio) = rest.takeWhile fun d => d.prio == c.prio := by
    rw [List.filter_eq_self]
    intro a ha
    have hb := List.mem_takeWhile_imp ha
    exact hb
  have e2 : (rest.dropWhile fun d => d.prio == c.prio).filter
      (fun d => d.prio == c.prio) = [] := by
    rw [List.filter_eq_nil_iff]
    intro a ha
    have hlt := sorted_dropWhile_lt c rest hs a ha
    simp [Nat.ne_of_lt hlt]
  conv_lhs => rw [← List.takeWhile_append_dropWhile (fun d => d.prio == c.prio) rest]
  rw [List.filter_append, e1, e2, List.append_nil]

/-- On a priority-descending sorted list, every run is the sublist of
changes carrying the run's priority, in their original order. -/
theorem splitRuns_groups_filter : ∀ l : List Change, List.Sorted prioGe l →
    ∀ g ∈ splitRuns l, g = l.filter fun d => d.prio == batchPrio (ChangeBatch.mk g) := by
  intro l
  induction l using splitRuns.induct with
  | case1 => intro _ g hg; rw [splitRuns] at hg; cases hg
  | case2 c rest ih =>
    intro hs g hg
    rw [splitRuns] at hg
    rcases List.mem_cons.mp hg with rfl | hgrec
    · rw [List.filter_cons]
      have hself : (c.prio == batchPrio (ChangeBatch.mk
          (c :: rest.takeWhile fun d => d.prio == c.prio))) = true := by
        simp [batchPrio]
      rw [hself, if_pos rfl]
      show _ = c :: rest.filter fun d => d.prio == c.prio
      rw [sorted_filter_eq_takeWhile c rest hs]
    · have hsortdw : List.Sorted prioGe (rest.dropWhile fun d => d.prio == c.prio) :=
        ((List.sorted_cons.mp hs).2).sublist
          (List.dropWhile_sublist (fun d : Change => d.prio == c.prio))
      have hrec := ih hsortdw g hgrec
      obtain ⟨h, t, rfl⟩ : ∃ h t, g = h :: t := by
        cases hne : g with
        | nil => exact absurd hne (splitRuns_ne_nil _ g hgrec)
        | cons h t => exact ⟨h, t, rfl⟩
      have hmemdw : h ∈ rest.dropWhile (fun d => d.prio == c.prio) := by
        have : h ∈ (splitRuns (rest.dropWhile fun d => d.prio == c.prio)).flatten :=
          List.mem_flatten.mpr ⟨h :: t, hgrec, List.mem_cons_self h t⟩
        rwa [splitRuns_flatten] at this
      have hklt : batchPrio (ChangeBatch.mk (h :: t)) < c.prio :=
        sorted_dropWhile_lt c rest hs h hmemdw
      have hcne : (c.prio == batchPrio (ChangeBatch.mk (h :: t))) = false := by
        simp only [beq_eq_false_iff_ne, ne_eq]
        exact fun hc => absurd (hc ▸ hklt) (lt_irrefl _)
      rw [List.filter_cons, hcne]
      simp only [Bool.false_eq_true, if_false]
      conv_rhs => rw [← List.takeWhile_append_dropWhile (fun d => d.prio == c.prio) rest]
      rw [List.filter_append]
      have htw : (rest.takeWhile fun d => d.prio == c.prio).filter
          (fun d => d.prio == batchPrio (ChangeBatch.mk (h :: t))) = [] := by
        rw [List.filter_eq_nil_iff]
        intro a ha
        have hb := List.mem_takeWhile_imp ha
        have ha2 : a.prio = c.prio := eq_of_beq hb
        simp only [beq_iff_eq]
        exact fun hc => absurd ((ha2 ▸ hc) ▸ hklt) (lt_irrefl _)
      rw [htw, List.nil_append]
      exact hrec

/-- On a priority-descending sorted list, runs have pairwise strictly
decreasing priorities. -/
theorem splitRuns_pairwise : ∀ l : List Change, List.Sorted prioGe l →
    (splitRuns l).Pairwise fun g1 g2 => ∀ x ∈ g1, ∀ y ∈ g2, y.prio < x.prio := by
  intro l
  induction l using splitRuns.induct with
  | case1 => intro _; rw [splitRuns]; exact List.Pairwise.nil
  | case2 c rest ih =>
    intro hs
    rw [splitRuns]
    refine List.Pairwise.cons ?_
      (ih (((List.sorted_cons.mp hs).2).sublist
        (List.dropWhile_sublist (fun d : Change => d.prio == c.prio))))
    intro g hg x hx y hy
    have hymem : y ∈ rest.dropWhile (fun d => d.prio == c.prio) := by
      have : y ∈ (splitRuns (rest.dropWhile fun d => d.prio == c.prio)).flatten :=
        List.mem_flatten.mpr ⟨g, hg, hy⟩
      rwa [splitRuns_flatten] at this
    have hylt : y.prio < c.prio := sorted_dropWhile_lt c rest hs y hymem
    have hxeq : x.prio = c.prio := by
      rcases List.mem_cons.mp hx with rfl | hxtw
      · rfl
      · have hb := List.mem_takeWhile_imp hxtw
        exact eq_of_beq hb
    rw [hxeq]
    exact hylt

/-- The batching loop, started inside a non-empty run, flushes the
current batch extended by the rest of the run and then batches the
remaining runs. -/
theorem batchLoop_run : ∀ (rest : List Change) (batches : List ChangeBatch)
    (cur : List Change) (p : Nat), cur ≠ [] →
    batchLoop rest batches (ChangeBatch.mk cur) (some p) =
      batches ++ ChangeBatch.mk (cur ++ rest.takeWhile fun d => d.prio == p) ::
        (splitRuns (rest.dropWhile fun d => d.prio == p)).map ChangeBatch.mk := by
  intro rest
  induction rest with
  | nil =>
    intro batches cur p hcur
    simp only [batchLoop, isEmpty_eq_false_of_ne_nil hcur, Bool.false_eq_true, if_false,
      List.takeWhile_nil, List.dropWhile_nil, List.append_nil]
    rw [splitRuns]
    rfl
  | cons d rest ih =>
    intro batches cur p hcur
    by_cases hdp : d.prio = p
    · simp only [batchLoop]
      rw [if_neg (by simp [hdp])]
      have hadd : (ChangeBatch.mk cur).add_change d = ChangeBatch.mk (cur ++ [d]) := rfl
      rw [hadd, hdp, ih batches (cur ++ [d]) p (by simp)]
      rw [List.takeWhile_cons_of_pos (by simp [hdp]),
        List.dropWhile_cons_of_pos (by simp [hdp])]
      simp [List.append_assoc]
    · simp only [batchLoop]
      rw [if_pos (by simp [hdp])]
      simp only [isEmpty_eq_false_of_ne_nil hcur, Bool.false_eq_true, if_false]
      have hadd : (ChangeBatch.mk []).add_change d = ChangeBatch.mk [d] := rfl
      rw [hadd, ih (batches ++ [ChangeBatch.mk cur]) [d] d.prio (by simp)]
      rw [List.takeWhile_cons_of_neg (by simp [hdp]),
        List.dropWhile_cons_of_neg (by simp [hdp])]
      rw [splitRuns]
      simp [List.append_assoc]

/-- The batch planner output is exactly the runs of the sorted,
priority-assigned change list. -/
theorem changes_to_r53_updates_eq_splitRuns (zone : Zone) (cs : List Change) :
    changes_to_r53_updates zone cs =
      (splitRuns (sortedByPrioDesc (assign_change_priority zone cs))).map ChangeBatch.mk := by
  simp only [changes_to_r53_updates]
  cases hs : sortedByPrioDesc (assign_change_priority zone cs) with
  | nil =>
    rw [splitRuns]
    rfl
  | cons c rest =>
    simp only [batchLoop]
    rw [if_neg (fun h => h rfl)]
    have hadd : (ChangeBatch.mk []).add_change c = ChangeBatch.mk [c] := rfl
    rw [hadd, batchLoop_run rest [] [c] c.prio (by simp)]
    rw [splitRuns]
    simp

/-- Inserting a change into a list touches no other priority class:
the priority-`k` changes of the result are those of the input, with the
new change in front when it carries priority `k` (the inserted element
is placed before every element it ties with only when they come later,
so the filtered view just gains the new head). -/
theorem orderedInsert_filter_prio (c : Change) (k : Nat) :
    ∀ s : List Change, (s.orderedInsert prioGe c).filter (fun d => d.prio == k) =
      if c.prio == k then c :: s.filter (fun d => d.prio == k)
      else s.filter fun d => d.prio == k := by
  intro s
  induction s with
  | nil =>
    by_cases hc : (c.prio == k) = true
    · simp [hc]
    · rw [Bool.not_eq_true] at hc
      simp [hc]
  | cons b s ih =>
    simp only [List.orderedInsert]
    by_cases h : prioGe c b
    · rw [if_pos h, List.filter_cons, List.filter_cons]
    · rw [if_neg h, List.filter_cons, ih]
      by_cases hb : (b.prio == k) = true
      · by_cases hc : (c.prio == k) = true
        · exfalso
          exact h (by rw [prioGe, eq_of_beq hb, eq_of_beq hc])
        · rw [Bool.not_eq_true] at hc
          simp [hb, hc, List.filter_cons]
      · rw [Bool.not_eq_true] at hb
        by_cases hc : (c.prio == k) = true
        · simp [hb, hc, List.filter_cons]
        · rw [Bool.not_eq_true] at hc
          simp [hb, hc, List.filter_cons]

/-- Stability of the priority-descending sort: each priority class keeps
its original relative order, so its filtered view is unchanged. -/
theorem sortedByPrioDesc_filter : ∀ (cs : List Change) (k : Nat),
    (sortedByPrioDesc cs).filter (fun d => d.prio == k) =
      cs.filter fun d => d.prio == k := by
  intro cs k
  unfold sortedByPrioDesc
  induction cs with
  | nil => rfl
  | cons c cs ih =>
    simp only [List.insertionSort]
    rw [orderedInsert_filter_prio c k (List.insertionSort prioGe cs), ih, List.filter_cons]

/-- The priority-assigned list keeps each change's zone, operation and
record unchanged (length and order included); only `prio` is written. -/
theorem assign_map_strip (zone : Zone) (cs : List Change) :
    ((assign_change_priority zone cs).map fun c => (c.zone, c.operation, c.record)) =
      cs.map fun c => (c.zone, c.operation, c.record) := by
  simp only [assign_change_priority, List.map_map]
  rfl

/-- C4: every batch returned by the planner is non-empty and carries a
single priority value; the batches come in strictly decreasing priority
order; and each batch lists its priority class in the order the changes
had in the (priority-assigned) input list — a stable grouping. -/
theorem changes_to_r53_updates_batches (zone : Zone) (cs : List Change) :
    (∀ b ∈ changes_to_r53_updates zone cs,
      b.changes ≠ [] ∧ ∀ c ∈ b.changes, c.prio = batchPrio b) ∧
    (changes_to_r53_updates zone cs).Pairwise
      (fun b1 b2 => batchPrio b2 < batchPrio b1) ∧
    ∀ b ∈ changes_to_r53_updates zone cs,
      b.changes = (assign_change_priority zone cs).filter fun c =>
        c.prio == batchPrio b := by
  have hsorted : List.Sorted prioGe (sortedByPrioDesc (assign_change_priority zone cs)) :=
    List.sorted_insertionSort prioGe _
  rw [changes_to_r53_updates_eq_splitRuns]
  refine ⟨?_, ?_, ?_⟩
  · intro b hb
    rcases List.mem_map.mp hb with ⟨g, hg, rfl⟩
    exact ⟨splitRuns_ne_nil _ g hg, splitRuns_run_prio _ g hg⟩
  · rw [List.pairwise_map]
    apply (splitRuns_pairwise _ hsorted).imp_of_mem
    intro g1 g2 hg1 hg2 hstrong
    obtain ⟨h1, t1, rfl⟩ : ∃ h t, g1 = h :: t := by
      cases hne : g1 with
      | nil => exact absurd hne (splitRuns_ne_nil _ g1 hg1)
      | cons h t => exact ⟨h, t, rfl⟩
    obtain ⟨h2, t2, rfl⟩ : ∃ h t, g2 = h :: t := by
      cases hne : g2 with
      | nil => exact absurd hne (splitRuns_ne_nil _ g2 hg2)
      | cons h t => exact ⟨h, t, rfl⟩
    exact hstrong h1 (List.mem_cons_self _ _) h2 (List.mem_cons_self _ _)
  · intro b hb
    rcases List.mem_map.mp hb with ⟨g, hg, rfl⟩
    have hgf := splitRuns_groups_filter _ hsorted g hg
    rw [sortedByPrioDesc_filter] at hgf
    exact hgf

/-- Witness for C4 at a concrete input: the planner on one change yields
the single batch holding it, non-empty and equal to its priority
class. -/
theorem changes_to_r53_updates_batches_witness :
    (ChangeBatch.mk [changeEx] ∈ changes_to_r53_updates zEx [changeEx]) ∧
    (ChangeBatch.mk [changeEx]).changes ≠ [] ∧
    (ChangeBatch.mk [changeEx]).changes =
      (assign_change_priority zEx [changeEx]).filter fun c =>
        c.prio == batchPrio (ChangeBatch.mk [changeEx]) :=
  ⟨by decide,
    ((changes_to_r53_updates_batches zEx [changeEx]).1
      (ChangeBatch.mk [changeEx]) (by decide)).1,
    (changes_to_r53_updates_batches zEx [changeEx]).2.2
      (ChangeBatch.mk [changeEx]) (by decide)⟩

/-- C10: concatenating the planner's batches gives back exactly the
input changes — a permutation of the (priority-assigned) input list, so
nothing is dropped or duplicated; stripped of the written `prio` field,
it is a permutation of the original input's contents. -/
theorem changes_to_r53_updates_complete (zone : Zone) (cs : List Change) :
    ((((changes_to_r53_updates zone cs).map fun b => b.changes).flatten).Perm
      (assign_change_priority zone cs)) ∧
    ((((changes_to_r53_updates zone cs).map fun b => b.changes).flatten).map
        fun c => (c.zone, c.operation, c.record)).Perm
      (cs.map fun c => (c.zone, c.operation, c.record)) := by
  have hperm : (((changes_to_r53_updates zone cs).map fun b => b.changes).flatten).Perm
      (assign_change_priority zone cs) := by
    rw [changes_to_r53_updates_eq_splitRuns, List.map_map]
    have hcomp : ((fun b : ChangeBatch => b.changes) ∘ ChangeBatch.mk) =
        fun g : List Change => g := rfl
    rw [hcomp, List.map_id', splitRuns_flatten]
    exact List.perm_insertionSort prioGe _
  refine ⟨hperm, ?_⟩
  have h2 := hperm.map fun c : Change => (c.zone, c.operation, c.record)
  rw [assign_map_strip zone cs] at h2
  exact h2
